import Mathlib

/-!
# Verification of go-currency

A shallow embedding of the `currency` Go package: a decimal currency value
stored as "atto dollars" (the value scaled by 10^18) in an arbitrary-precision
signed integer (`math/big.Int`, modelled as `Int`).  Go strings are modelled as
`List Char`.

The embedding covers the codec layer (`parse`, `stringify`, `zstripPre`,
`zstripPost`), the value type and its operations (`New`, `NewFromString`,
`String`, `StringFixed`, arithmetic, `Cmp`/`Eq`), and the JSON hooks
(`MarshalJSON`/`UnmarshalJSON`).  `big.Int.Quo`/`DivMod` panic on a zero
divisor; that run-time panic is modelled by `Option` with `none` for the panic.
-/

namespace currency

/-- Decimal digit character with value `d` (for `d < 10`). -/
def digitChar (d : Nat) : Char := Char.ofNat (48 + d)

/-- Numeric value of a decimal digit character. -/
def charVal (c : Char) : Nat := c.toNat - 48

/-- Value of a character list read as a base-10 numeral, most significant
digit first; this is the number denoted by a digit string. -/
def charsVal (l : List Char) : Nat := l.foldl (fun a c => 10 * a + charVal c) 0

/-- Decimal rendering of a natural number, with explicit fuel so that the
definition is structurally recursive (the fuel is always sufficient). -/
def natToCharsAux : Nat → Nat → List Char
  | 0, _ => []
  | fuel+1, n => if n = 0 then [] else natToCharsAux fuel (n / 10) ++ [digitChar (n % 10)]

/-- Decimal rendering of a natural number; `0` renders as `"0"`. -/
def natToChars (n : Nat) : List Char := if n = 0 then ['0'] else natToCharsAux n n

/-- `big.Int.String`: canonical signed decimal representation, a leading
minus sign for negative values. -/
def intToChars (v : Int) : List Char :=
  if v < 0 then '-' :: natToChars v.natAbs else natToChars v.natAbs

/-- A run of decimal digits read as a natural number; `none` when the list is
empty or contains a non-digit (`big.Int.SetString` digit-run handling,
base 10). -/
def parseNatDigits (l : List Char) : Option Nat :=
  if l.isEmpty then none
  else if l.all Char.isDigit then some (charsVal l) else none

/-- `big.Int.SetString(s, 10)`: an optional single leading sign followed by at
least one decimal digit. -/
def setString (l : List Char) : Option Int :=
  match l with
  | c :: rest =>
    if c = '+' then (parseNatDigits rest).map (fun n => Int.ofNat n)
    else if c = '-' then (parseNatDigits rest).map (fun n => -Int.ofNat n)
    else (parseNatDigits (c :: rest)).map (fun n => Int.ofNat n)
  | [] => none

/-- Atto exponent (`const eExp = 18`). -/
def eExp : Nat := 18

/-- Two's-complement wrap-around of 64-bit signed multiplication results. -/
def wrap64 (x : Int) : Int := (x + 2 ^ 63) % 2 ^ 64 - 2 ^ 63

/-- Loop of `pow64` (binary exponentiation on `int64`), with fuel; the Go
loop runs while `b > 0`, halving `b` each iteration, so fuel `b` suffices. -/
def pow64Aux : Nat → Int → Int → Nat → Int
  | 0, r, _, _ => r
  | fuel+1, r, a, b =>
    if b = 0 then r
    else pow64Aux fuel (if b % 2 = 1 then wrap64 (r * a) else r) (wrap64 (a * a)) (b / 2)

/-- `pow64(a, b)`: binary exponentiation on wrapping 64-bit integers. -/
def pow64 (a : Int) (b : Nat) : Int := pow64Aux b 1 a b

/-- `iMult`/`iBigMult`: the scale multiplier `pow64(10, eExp)`. -/
def iMult : Int := pow64 10 eExp

/-- `zeroes`: a string of `eExp` zero characters built by `init`. -/
def zeroes : List Char := List.replicate eExp '0'

/-- `strings.Split(s, ".")`: the substrings of `s` between occurrences of
`'.'`; never empty, and `[s]` when `s` has no dot. -/
def splitDot : List Char → List (List Char)
  | [] => [[]]
  | c :: rest =>
    if c = '.' then [] :: splitDot rest
    else
      match splitDot rest with
      | [] => [[c]]
      | h :: t => (c :: h) :: t

/-- `zstripPre`: strip leading zero characters. -/
def zstripPre (s : List Char) : List Char := s.dropWhile (fun c => c == '0')

/-- `zstripPost`: strip trailing zero characters. -/
def zstripPost (s : List Char) : List Char :=
  (s.reverse.dropWhile (fun c => c == '0')).reverse

/-- The three `fmt.Errorf` failures of `parse`. -/
inductive ParseErr where
  | malformed
  | invalidDecimal
  | invalidFraction
deriving DecidableEq

/-- Fraction-and-combine tail of `parse`: truncate the fraction field to
`eExp` characters, record its length `n`, strip leading zeroes, read the
remainder via `SetString`, scale by `10^(eExp-n)` and add to `p * iMult`. -/
def parseFrac (p : Int) (post : List Char) : Except ParseErr Int :=
  let post1 := if eExp < post.length then post.take eExp else post
  let n := post1.length
  let post2 := zstripPre post1
  match (if 0 < post2.length then
           match setString post2 with
           | some x => Except.ok x
           | none => Except.error ParseErr.invalidFraction
         else Except.ok 0 : Except ParseErr Int) with
  | .error e => .error e
  | .ok f =>
    .ok (p * iMult + (if 0 < eExp - n then f * pow64 10 (eExp - n) else f))

/-- Body of `parse` after the split: read the (already zero-stripped) integer
part into `p` when non-empty, then process the (already trailing-stripped)
fraction part. -/
def parseCore (p : Int) (pre post : List Char) : Except ParseErr Int :=
  match (if 0 < pre.length then
           match setString pre with
           | some x => Except.ok x
           | none => Except.error ParseErr.invalidDecimal
         else Except.ok p : Except ParseErr Int) with
  | .error e => .error e
  | .ok p => parseFrac p post

/-- `parse(p *big.Int, s string) error`: the receiver's prior value `p` goes
in, the new value (or the error) comes out. -/
def parse (p : Int) (s : List Char) : Except ParseErr Int :=
  match splitDot s with
  | [a] => parseCore p (zstripPre a) []
  | [a, b] => parseCore p (zstripPre a) (zstripPost b)
  | _ => .error .malformed

/-- `stringify(b, oprec)`: render as atto-dollars with `oprec` fractional
digits (already clamped by the callers to `1..eExp`). -/
def stringify (b : Int) (oprec : Nat) : List Char :=
  let s := intToChars b
  let mx : List Char × List Char :=
    if s.length ≤ eExp then
      (['0'], zeroes.take (eExp - s.length) ++ s)
    else
      (s.take (s.length - eExp), s.drop (s.length - eExp))
  let x := if oprec < mx.2.length then mx.2.take oprec else mx.2
  mx.1 ++ '.' :: x

/-- The currency value: an embedded big integer counting atto dollars. -/
structure Currency where
  units : Int
deriving DecidableEq

/-- `New()`: zero-valued currency. -/
def New : Currency := ⟨0⟩

/-- `NewFromString(s)`: fresh zero value; non-empty input goes through
`parse`. -/
def NewFromString (s : List Char) : Except ParseErr Currency :=
  if 0 < s.length then (parse 0 s).map Currency.mk else .ok ⟨0⟩

/-- `func (p Currency) String() string`. -/
def Currency.String (p : Currency) : List Char := stringify p.units eExp

/-- `func (p *Currency) StringFixed(oprec int) string`: out-of-range
precisions are clamped to `eExp`. -/
def Currency.StringFixed (p : Currency) (oprec : Int) : List Char :=
  let o : Int := if oprec > (eExp : Int) ∨ oprec ≤ 0 then (eExp : Int) else oprec
  stringify p.units o.toNat

/-- Free function `Add`. -/
def Add (a b : Currency) : Currency := ⟨a.units + b.units⟩

/-- Free function `Sub`. -/
def Sub (a b : Currency) : Currency := ⟨a.units - b.units⟩

/-- Free function `Mul`. -/
def Mul (a b : Currency) : Currency := ⟨a.units * b.units⟩

/-- Free function `Div`: `big.Int.Quo` (truncated division); the
division-by-zero run-time panic is `none`. -/
def Div (a b : Currency) : Option Currency :=
  if b.units = 0 then none else some ⟨Int.tdiv a.units b.units⟩

/-- Free function `DivMod`: `big.Int.DivMod` (Euclidean division); the
division-by-zero run-time panic is `none`. -/
def DivMod (a b : Currency) : Option (Currency × Currency) :=
  if b.units = 0 then none
  else some (⟨Int.ediv a.units b.units⟩, ⟨Int.emod a.units b.units⟩)

/-- Free function `Inv`: `Quo(iBigMult, a)`, truncated division of the scale
multiplier by the operand; `none` is the division-by-zero panic. -/
def Inv (a : Currency) : Option Currency :=
  if a.units = 0 then none else some ⟨Int.tdiv iMult a.units⟩

/-- Free function `Cmp`: `-1`, `0`, `+1` as `a < b`, `a = b`, `a > b`. -/
def Cmp (a b : Currency) : Int :=
  if a.units < b.units then -1 else if b.units < a.units then 1 else 0

/-- Free function `Eq`: `0 == Cmp(a, b)`. -/
def Eq (a b : Currency) : Bool := Cmp a b == 0

/-- Method `(p *Currency) Div(x)`: quotient stored back into the receiver. -/
def Currency.Div (p x : Currency) : Option Currency :=
  if x.units = 0 then none else some ⟨Int.tdiv p.units x.units⟩

/-- Method `(p *Currency) DivMod(x)`: Euclidean quotient and remainder. -/
def Currency.DivMod (p x : Currency) : Option (Currency × Currency) :=
  if x.units = 0 then none
  else some (⟨Int.ediv p.units x.units⟩, ⟨Int.emod p.units x.units⟩)

/-- Method `(p *Currency) IsZero()`. -/
def Currency.IsZero (p : Currency) : Bool := Cmp p ⟨0⟩ == 0

/-- `MarshalJSON`: the `String()` rendering as raw bytes (the error result is
always nil in the source, so it is omitted). -/
def Currency.MarshalJSON (p : Currency) : List Char := Currency.String p

/-- `UnmarshalJSON`: feed the bytes to `parse`; the receiver's prior value
participates exactly as in `parse`. -/
def Currency.UnmarshalJSON (p : Currency) (txt : List Char) : Except ParseErr Currency :=
  (parse p.units txt).map Currency.mk

/-- Number of dot characters in a string (for stating the malformed-input
condition). -/
def dotCount (s : List Char) : Nat := s.count '.'

/-- Whole-unit segment of a rendered string: the characters before the first
dot. -/
def wholeSeg (s : List Char) : List Char := s.takeWhile (fun c => c != '.')

/-- Fractional segment of a rendered string: the characters after the first
dot. -/
def fracSeg (s : List Char) : List Char := (s.dropWhile (fun c => c != '.')).drop 1

/-- The integer field of an input as `parse` sees it: the part before the
first dot, leading zeroes stripped. -/
def preOf (s : List Char) : List Char := zstripPre ((splitDot s).headD [])

/-- The fraction field of an input as `parse` sees it: the part between the
first and second dots, trailing zeroes stripped. -/
def rawPostOf (s : List Char) : List Char := zstripPost ((splitDot s).getD 1 [])

/-- The fraction field after truncation to `eExp` characters. -/
def truncPostOf (s : List Char) : List Char :=
  if eExp < (rawPostOf s).length then (rawPostOf s).take eExp else rawPostOf s

/-- The fraction field after truncation and leading-zero stripping: what
`parse` hands to `SetString`. -/
def strippedPostOf (s : List Char) : List Char := zstripPre (truncPostOf s)

/-- Claim-side meaning function, written from the spec's words rather than
from the code: the exact value denoted by an unsigned decimal numeral (digit
characters with at most one dot and at most 18 fractional digits), scaled by
`10^18`; `none` when the string is not such a numeral. -/
def decimalValueScaledCore (t : List Char) : Option Int :=
  match splitDot t with
  | [ip] =>
      if ip.all Char.isDigit then some ((charsVal ip : Int) * 10 ^ 18) else none
  | [ip, fp] =>
      if ip.all Char.isDigit && fp.all Char.isDigit && decide (fp.length ≤ 18) then
        some ((charsVal ip : Int) * 10 ^ 18 + (charsVal fp : Int) * 10 ^ (18 - fp.length))
      else none
  | _ => none

/-- Claim-side meaning function: the exact value denoted by a decimal
numeral with an optional leading minus sign, scaled by `10^18`. -/
def decimalValueScaled (s : List Char) : Option Int :=
  match s with
  | c :: r =>
    if c = '-' then
      if r.isEmpty then none else (decimalValueScaledCore r).map (fun v => -v)
    else decimalValueScaledCore (c :: r)
  | [] => decimalValueScaledCore []

/-! ## Digit characters and numeral values -/

theorem charVal_digitChar {d : Nat} (hd : d < 10) : charVal (digitChar d) = d := by
  interval_cases d <;> rfl

theorem isDigit_digitChar {d : Nat} (hd : d < 10) : (digitChar d).isDigit = true := by
  interval_cases d <;> rfl

theorem digitChar_ne_zero_char {d : Nat} (hd : d < 10) (h0 : d ≠ 0) : digitChar d ≠ '0' := by
  interval_cases d <;> simp_all <;> decide

theorem ne_dot_of_isDigit {c : Char} (h : c.isDigit = true) : c ≠ '.' := by
  rintro rfl; exact absurd h (by decide)

theorem ne_dash_of_isDigit {c : Char} (h : c.isDigit = true) : c ≠ '-' := by
  rintro rfl; exact absurd h (by decide)

theorem ne_plus_of_isDigit {c : Char} (h : c.isDigit = true) : c ≠ '+' := by
  rintro rfl; exact absurd h (by decide)

theorem foldl_charsVal_acc (l : List Char) : ∀ a : Nat,
    l.foldl (fun a c => 10 * a + charVal c) a = a * 10 ^ l.length + charsVal l := by
  induction l with
  | nil => intro a; simp [charsVal]
  | cons c t ih =>
    intro a
    simp only [List.foldl_cons, charsVal, List.length_cons]
    rw [ih (10 * a + charVal c), ih (10 * 0 + charVal c)]
    ring

theorem charsVal_append (A B : List Char) :
    charsVal (A ++ B) = charsVal A * 10 ^ B.length + charsVal B := by
  unfold charsVal
  rw [List.foldl_append]
  exact foldl_charsVal_acc B (charsVal A)

theorem charsVal_singleton (c : Char) : charsVal [c] = charVal c := by
  simp [charsVal]

theorem charsVal_cons_zero (l : List Char) : charsVal ('0' :: l) = charsVal l := by
  have h : charsVal ('0' :: l)
      = List.foldl (fun a c => 10 * a + charVal c) (10 * 0 + charVal '0') l := rfl
  have h0 : 10 * 0 + charVal '0' = 0 := rfl
  rw [h, h0]
  rfl

theorem charsVal_zfill {A : List Char} (B : List Char) (hA : ∀ c ∈ A, c = '0') :
    charsVal (A ++ B) = charsVal B := by
  induction A with
  | nil => rfl
  | cons c t ih =>
    have hc : c = '0' := hA c (List.mem_cons_self c t)
    subst hc
    rw [List.cons_append, charsVal_cons_zero]
    exact ih fun c hc => hA c (List.mem_cons_of_mem _ hc)

theorem charsVal_replicate_zero (k : Nat) : charsVal (List.replicate k '0') = 0 := by
  have := charsVal_zfill (A := List.replicate k '0') []
    (fun c hc => (List.mem_replicate.mp hc).2)
  simpa using this

theorem charsVal_append_replicate_zero (A : List Char) (k : Nat) :
    charsVal (A ++ List.replicate k '0') = charsVal A * 10 ^ k := by
  rw [charsVal_append, charsVal_replicate_zero, List.length_replicate, Nat.add_zero]

/-! ## Decimal rendering of naturals -/

theorem natToCharsAux_eq (fuel : Nat) : ∀ n : Nat, n ≤ fuel →
    natToCharsAux fuel n = ((Nat.digits 10 n).map digitChar).reverse := by
  induction fuel with
  | zero =>
    intro n hn
    interval_cases n
    simp [natToCharsAux, Nat.digits_zero]
  | succ f ih =>
    intro n hn
    by_cases h0 : n = 0
    · subst h0; simp [natToCharsAux]
    · have hdiv : n / 10 < n := Nat.div_lt_self (Nat.pos_of_ne_zero h0) (by norm_num)
      unfold natToCharsAux
      rw [if_neg h0, ih (n / 10) (by omega)]
      rw [Nat.digits_def' (by norm_num : (1:Nat) < 10) (Nat.pos_of_ne_zero h0)]
      simp

theorem natToChars_eq {n : Nat} (h : n ≠ 0) :
    natToChars n = ((Nat.digits 10 n).map digitChar).reverse := by
  unfold natToChars
  rw [if_neg h]
  exact natToCharsAux_eq n n le_rfl

theorem charsVal_map_digitChar (L : List Nat) (hL : ∀ d ∈ L, d < 10) :
    charsVal ((L.map digitChar).reverse) = Nat.ofDigits 10 L := by
  induction L with
  | nil => simp [charsVal, Nat.ofDigits_nil]
  | cons d T ih =>
    simp only [List.map_cons, List.reverse_cons]
    rw [charsVal_append, ih fun x hx => hL x (List.mem_cons_of_mem _ hx),
      charsVal_singleton, charVal_digitChar (hL d (List.mem_cons_self d T)),
      Nat.ofDigits_cons]
    simp only [List.length_singleton]
    ring

theorem charsVal_natToChars (n : Nat) : charsVal (natToChars n) = n := by
  by_cases h : n = 0
  · subst h; rfl
  · rw [natToChars_eq h,
      charsVal_map_digitChar _ fun d hd => Nat.digits_lt_base (by norm_num) hd,
      Nat.ofDigits_digits]

theorem natToChars_all_digit (n : Nat) : ∀ c ∈ natToChars n, c.isDigit = true := by
  by_cases h : n = 0
  · subst h
    intro c hc
    have h0 : natToChars 0 = ['0'] := rfl
    rw [h0, List.mem_singleton] at hc
    subst hc; decide
  · rw [natToChars_eq h]
    intro c hc
    rw [List.mem_reverse] at hc
    obtain ⟨d, hd, rfl⟩ := List.mem_map.mp hc
    exact isDigit_digitChar (Nat.digits_lt_base (by norm_num) hd)

theorem natToChars_length {n : Nat} (h : n ≠ 0) :
    (natToChars n).length = (Nat.digits 10 n).length := by
  rw [natToChars_eq h]; simp

theorem natToChars_ne_nil (n : Nat) : natToChars n ≠ [] := by
  by_cases h : n = 0
  · subst h; simp [natToChars]
  · rw [natToChars_eq h]
    simp [Nat.digits_ne_nil_iff_ne_zero.mpr h]

/-! ## Zero stripping -/

theorem zstripPre_decomp (l : List Char) : ∃ k, l = List.replicate k '0' ++ zstripPre l := by
  refine ⟨(l.takeWhile (fun c => c == '0')).length, ?_⟩
  have h1 : l.takeWhile (fun c => c == '0')
      = List.replicate (l.takeWhile (fun c => c == '0')).length '0' := by
    refine List.eq_replicate_of_mem fun b hb => ?_
    have hp : (b == '0') = true := @List.mem_takeWhile_imp Char (fun c => c == '0') l b hb
    exact beq_iff_eq.mp hp
  conv_lhs => rw [← List.takeWhile_append_dropWhile (fun c => c == '0') l]
  rw [← h1]
  rfl

theorem charsVal_zstripPre (l : List Char) : charsVal (zstripPre l) = charsVal l := by
  obtain ⟨k, hk⟩ := zstripPre_decomp l
  conv_rhs => rw [hk]
  rw [charsVal_zfill _ fun c hc => (List.mem_replicate.mp hc).2]

theorem mem_of_mem_zstripPre {c : Char} {l : List Char} (h : c ∈ zstripPre l) : c ∈ l := by
  obtain ⟨k, hk⟩ := zstripPre_decomp l
  rw [hk]
  exact List.mem_append_right _ h

theorem zstripPre_eq_nil_iff {l : List Char} : zstripPre l = [] ↔ ∀ c ∈ l, c = '0' := by
  unfold zstripPre
  rw [List.dropWhile_eq_nil_iff]
  constructor
  · intro h c hc
    exact beq_iff_eq.mp (h c hc)
  · intro h c hc
    exact beq_iff_eq.mpr (h c hc)

theorem zstripPre_replicate_zero (k : Nat) : zstripPre (List.replicate k '0') = [] :=
  zstripPre_eq_nil_iff.mpr fun _ hc => (List.mem_replicate.mp hc).2

theorem zstripPre_cons_of_ne {c : Char} (t : List Char) (h : c ≠ '0') :
    zstripPre (c :: t) = c :: t := by
  unfold zstripPre
  rw [List.dropWhile_cons, if_neg]
  simp [h]

theorem charsVal_eq_zero_of_zstripPre_nil {l : List Char} (h : zstripPre l = []) :
    charsVal l = 0 := by
  rw [← charsVal_zstripPre, h]
  rfl

theorem zstripPost_decomp (l : List Char) : ∃ k, l = zstripPost l ++ List.replicate k '0' := by
  obtain ⟨k, hk⟩ := zstripPre_decomp l.reverse
  refine ⟨k, ?_⟩
  conv_lhs => rw [← List.reverse_reverse l, hk]
  rw [List.reverse_append, List.reverse_replicate]
  rfl

theorem charsVal_zstripPost (l : List Char) :
    ∃ k, l = zstripPost l ++ List.replicate k '0' ∧
      charsVal l = charsVal (zstripPost l) * 10 ^ k ∧
      l.length = (zstripPost l).length + k := by
  obtain ⟨k, hk⟩ := zstripPost_decomp l
  refine ⟨k, hk, ?_, ?_⟩
  · conv_lhs => rw [hk]
    exact charsVal_append_replicate_zero _ k
  · conv_lhs => rw [hk]
    simp

theorem mem_of_mem_zstripPost {c : Char} {l : List Char} (h : c ∈ zstripPost l) : c ∈ l := by
  obtain ⟨k, hk⟩ := zstripPost_decomp l
  rw [hk]
  exact List.mem_append_left _ h

theorem zstripPost_length_le (l : List Char) : (zstripPost l).length ≤ l.length := by
  obtain ⟨k, hk⟩ := zstripPost_decomp l
  conv_rhs => rw [hk]
  simp

/-! ## Splitting on the dot -/

theorem splitDot_ne_nil (s : List Char) : splitDot s ≠ [] := by
  cases s with
  | nil => simp [splitDot]
  | cons c t =>
    unfold splitDot
    by_cases hc : c = '.'
    · simp [hc]
    · rw [if_neg hc]
      cases h : splitDot t <;> simp

theorem splitDot_no_dot {s : List Char} (h : '.' ∉ s) : splitDot s = [s] := by
  induction s with
  | nil => rfl
  | cons c t ih =>
    have hc : c ≠ '.' := fun e => h (e ▸ List.mem_cons_self c t)
    have ht : '.' ∉ t := fun m => h (List.mem_cons_of_mem _ m)
    unfold splitDot
    rw [if_neg hc, ih ht]

theorem splitDot_append {a : List Char} (b : List Char) (h : '.' ∉ a) :
    splitDot (a ++ '.' :: b) = a :: splitDot b := by
  induction a with
  | nil => simp [splitDot]
  | cons c t ih =>
    have hc : c ≠ '.' := fun e => h (e ▸ List.mem_cons_self c t)
    have ht : '.' ∉ t := fun m => h (List.mem_cons_of_mem _ m)
    have step : splitDot (c :: (t ++ '.' :: b)) =
        if c = '.' then [] :: splitDot (t ++ '.' :: b)
        else match splitDot (t ++ '.' :: b) with
          | [] => [[c]]
          | h :: tl => (c :: h) :: tl := rfl
    rw [List.cons_append, step, if_neg hc, ih ht]

theorem splitDot_length (s : List Char) : (splitDot s).length = dotCount s + 1 := by
  induction s with
  | nil => rfl
  | cons c t ih =>
    show (splitDot (c :: t)).length = dotCount (c :: t) + 1
    unfold splitDot dotCount
    by_cases hc : c = '.'
    · subst hc
      simp only [if_pos rfl, List.length_cons, List.count_cons]
      unfold dotCount at ih
      simp [ih]
    · rw [if_neg hc]
      cases h : splitDot t with
      | nil => exact absurd h (splitDot_ne_nil t)
      | cons x xs =>
        unfold dotCount at ih
        rw [h] at ih
        simp only [List.length_cons, List.count_cons] at ih ⊢
        simp [hc, ih]

/-! ## The scale multiplier -/

theorem pow64_ten_fin : ∀ e : Fin 19, pow64 10 e.val = 10 ^ e.val := by decide

theorem pow64_ten {e : Nat} (he : e ≤ 18) : pow64 10 e = 10 ^ e :=
  pow64_ten_fin ⟨e, by omega⟩

theorem iMult_eq : iMult = 10 ^ 18 := by decide

/-! ## SetString -/

theorem parseNatDigits_of_digits {l : List Char} (hne : l ≠ [])
    (h : ∀ c ∈ l, c.isDigit = true) : parseNatDigits l = some (charsVal l) := by
  cases l with
  | nil => exact absurd rfl hne
  | cons c t =>
    unfold parseNatDigits
    rw [if_neg (by simp), if_pos (List.all_eq_true.mpr h)]

theorem setString_of_digits {l : List Char} (hne : l ≠ [])
    (h : ∀ c ∈ l, c.isDigit = true) : setString l = some ((charsVal l : Int)) := by
  cases l with
  | nil => exact absurd rfl hne
  | cons c t =>
    have hcd := h c (List.mem_cons_self c t)
    show (if c = '+' then (parseNatDigits t).map (fun n => Int.ofNat n)
      else if c = '-' then (parseNatDigits t).map (fun n => -Int.ofNat n)
      else (parseNatDigits (c :: t)).map (fun n => Int.ofNat n)) = _
    rw [if_neg (ne_plus_of_isDigit hcd), if_neg (ne_dash_of_isDigit hcd),
      parseNatDigits_of_digits hne h]
    rfl

theorem setString_dash_digits {t : List Char} (hne : t ≠ [])
    (h : ∀ c ∈ t, c.isDigit = true) : setString ('-' :: t) = some (-(charsVal t : Int)) := by
  show (if '-' = '+' then (parseNatDigits t).map (fun n => Int.ofNat n)
    else if '-' = '-' then (parseNatDigits t).map (fun n => -Int.ofNat n)
    else (parseNatDigits ('-' :: t)).map (fun n => Int.ofNat n)) = _
  rw [if_neg (by decide), if_pos rfl, parseNatDigits_of_digits hne h]
  rfl

theorem setString_nil : setString [] = none := rfl

theorem setString_ne_nil_of_some {l : List Char} {p : Int} (h : setString l = some p) :
    l ≠ [] := by
  intro he
  rw [he, setString_nil] at h
  exact Option.noConfusion h

/-! ## The parse pipeline -/

theorem parseFrac_digits (p : Int) (post : List Char) (h : ∀ c ∈ post, c.isDigit = true) :
    parseFrac p post
      = .ok (p * iMult + (charsVal (post.take eExp) : Int) * 10 ^ (eExp - post.length)) := by
  have htake : ∀ c ∈ post.take eExp, c.isDigit = true :=
    fun c hc => h c (List.take_subset _ _ hc)
  simp only [parseFrac]
  by_cases hlen : eExp < post.length
  · rw [if_pos hlen]
    have hn : (post.take eExp).length = eExp := by rw [List.length_take]; omega
    have hexp : eExp - post.length = 0 := by omega
    rcases hstrip : zstripPre (post.take eExp) with _ | ⟨c, t⟩
    · have hval : charsVal (post.take eExp) = 0 := by
        rw [← charsVal_zstripPre (post.take eExp), hstrip]
        rfl
      simp [hn, hval, hexp]
    · have hne : zstripPre (post.take eExp) ≠ [] := by rw [hstrip]; simp
      have hdig : ∀ x ∈ zstripPre (post.take eExp), x.isDigit = true :=
        fun x hx => htake x (mem_of_mem_zstripPre hx)
      have hset : setString (zstripPre (post.take eExp))
          = some ((charsVal (post.take eExp) : Int)) := by
        rw [setString_of_digits hne hdig, charsVal_zstripPre]
      rw [hstrip] at hset
      rw [hset]
      simp [hn, hexp]
  · rw [if_neg hlen]
    have htk : post.take eExp = post := List.take_of_length_le (by omega)
    rcases hstrip : zstripPre post with _ | ⟨c, t⟩
    · have hval : charsVal post = 0 := by
        rw [← charsVal_zstripPre post, hstrip]
        rfl
      rw [htk, hval]
      by_cases hx : 0 < eExp - post.length <;> simp [hx]
    · have hne : zstripPre post ≠ [] := by rw [hstrip]; simp
      have hdig : ∀ x ∈ zstripPre post, x.isDigit = true :=
        fun x hx => h x (mem_of_mem_zstripPre hx)
      have hset : setString (zstripPre post) = some ((charsVal post : Int)) := by
        rw [setString_of_digits hne hdig, charsVal_zstripPre]
      rw [hstrip] at hset
      rw [hset, htk]
      by_cases hx : 0 < eExp - post.length
      · rw [pow64_ten (by unfold eExp; omega : eExp - post.length ≤ 18)]
        simp [hx]
      · have h0 : eExp - post.length = 0 := by omega
        rw [h0]
        simp

theorem parseCore_resolved {p0 p : Int} {pre : List Char}
    (hpre : (pre = [] ∧ p = p0) ∨ setString pre = some p) (post : List Char) :
    parseCore p0 pre post = parseFrac p post := by
  unfold parseCore
  rcases hpre with ⟨rfl, rfl⟩ | hset
  · rfl
  · have hlen : 0 < pre.length := List.length_pos.mpr (setString_ne_nil_of_some hset)
    rw [if_pos hlen, hset]

theorem parseCore_invalid {p0 : Int} {pre : List Char} (hne : pre ≠ [])
    (hset : setString pre = none) (post : List Char) :
    parseCore p0 pre post = .error .invalidDecimal := by
  unfold parseCore
  rw [if_pos (List.length_pos.mpr hne), hset]

theorem parse_eq_core_two {ip : List Char} (fp : List Char)
    (hip : '.' ∉ ip) (hfp : '.' ∉ fp) (p0 : Int) :
    parse p0 (ip ++ '.' :: fp) = parseCore p0 (zstripPre ip) (zstripPost fp) := by
  unfold parse
  rw [splitDot_append fp hip, splitDot_no_dot hfp]

theorem parse_eq_core_one {s : List Char} (h : '.' ∉ s) (p0 : Int) :
    parse p0 s = parseCore p0 (zstripPre s) [] := by
  unfold parse
  rw [splitDot_no_dot h]

theorem frac_contrib_eq (fp : List Char) :
    (charsVal ((zstripPost fp).take eExp) : Int) * 10 ^ (eExp - (zstripPost fp).length)
      = (charsVal (fp.take eExp) : Int) * 10 ^ (eExp - fp.length) := by
  obtain ⟨k, hk, hval, hlen⟩ := charsVal_zstripPost fp
  by_cases hla : eExp ≤ (zstripPost fp).length
  · have ht : fp.take eExp = (zstripPost fp).take eExp := by
      conv_lhs => rw [hk]
      exact List.take_append_of_le_length hla
    have h1 : eExp - (zstripPost fp).length = 0 := by omega
    have h2 : eExp - fp.length = 0 := by omega
    rw [ht, h1, h2]
  · have hAt : (zstripPost fp).take eExp = zstripPost fp :=
      List.take_of_length_le (by omega)
    rw [hAt]
    by_cases hfl : fp.length ≤ eExp
    · have ht : fp.take eExp = fp := List.take_of_length_le hfl
      rw [ht, hval]
      have he : eExp - (zstripPost fp).length = k + (eExp - fp.length) := by omega
      rw [he, pow_add]
      push_cast
      ring
    · have he : eExp = (zstripPost fp).length + (eExp - (zstripPost fp).length) := by omega
      have ht : fp.take eExp
          = zstripPost fp ++ List.replicate (eExp - (zstripPost fp).length) '0' := by
        conv_lhs => rw [hk, he, List.take_append]
        rw [List.take_replicate, Nat.min_eq_left (by omega)]
      rw [ht, charsVal_append_replicate_zero]
      have h2 : eExp - fp.length = 0 := by omega
      rw [h2]
      push_cast
      ring

theorem parse_append_formula (p0 p : Int) (ip fp : List Char)
    (hdot : '.' ∉ ip)
    (hip : (zstripPre ip = [] ∧ p = p0) ∨ setString (zstripPre ip) = some p)
    (hfp : ∀ c ∈ fp, c.isDigit = true) :
    parse p0 (ip ++ '.' :: fp)
      = .ok (p * 10 ^ 18 + (charsVal (fp.take 18) : Int) * 10 ^ (18 - fp.length)) := by
  have hfp2 : '.' ∉ fp := fun hm => (ne_dot_of_isDigit (hfp _ hm)) rfl
  rw [parse_eq_core_two fp hdot hfp2, parseCore_resolved hip,
    parseFrac_digits p _ (fun c hc => hfp c (mem_of_mem_zstripPost hc)),
    frac_contrib_eq, iMult_eq]
  rfl

theorem parse_nodot_formula (p0 p : Int) (ip : List Char)
    (hdot : '.' ∉ ip)
    (hip : (zstripPre ip = [] ∧ p = p0) ∨ setString (zstripPre ip) = some p) :
    parse p0 ip = .ok (p * 10 ^ 18) := by
  rw [parse_eq_core_one hdot, parseCore_resolved hip,
    parseFrac_digits p [] (by simp), iMult_eq]
  norm_num [charsVal]

/-! ## Heads of decimal renderings -/

theorem zstripPre_natToChars {n : Nat} (h : n ≠ 0) : zstripPre (natToChars n) = natToChars n := by
  have hd : Nat.digits 10 n ≠ [] := Nat.digits_ne_nil_iff_ne_zero.mpr h
  have hlast : (Nat.digits 10 n).getLast hd ≠ 0 := Nat.getLast_digit_ne_zero 10 h
  have hlt : (Nat.digits 10 n).getLast hd < 10 :=
    Nat.digits_lt_base (by norm_num) (List.getLast_mem hd)
  rw [natToChars_eq h]
  obtain ⟨L, d, hd0, hdlt, hL⟩ : ∃ L d, d ≠ 0 ∧ d < 10 ∧ Nat.digits 10 n = L ++ [d] :=
    ⟨(Nat.digits 10 n).dropLast, (Nat.digits 10 n).getLast hd, hlast, hlt,
      (List.dropLast_append_getLast hd).symm⟩
  rw [hL]
  simp only [List.map_append, List.reverse_append, List.map_cons, List.map_nil,
    List.reverse_cons, List.reverse_nil, List.nil_append, List.singleton_append]
  exact zstripPre_cons_of_ne _ (digitChar_ne_zero_char hdlt hd0)

theorem head_ne_zero_of_zstripPre_self {c : Char} {t : List Char}
    (h : zstripPre (c :: t) = c :: t) : c ≠ '0' := by
  intro hc
  subst hc
  unfold zstripPre at h
  rw [List.dropWhile_cons, if_pos (by simp)] at h
  have h1 := congrArg List.length h
  have h2 := (List.dropWhile_sublist (l := t) (fun c => c == '0')).length_le
  simp at h1
  omega

theorem lt_pow_length_natToChars {n : Nat} (hn : n ≠ 0) :
    n < 10 ^ (natToChars n).length := by
  rw [natToChars_length hn]
  exact Nat.lt_base_pow_length_digits (by norm_num)

/-! ## Resolving the integer field of digit strings -/

theorem ipart_resolve_zero {m : List Char} (hdig : ∀ c ∈ m, c.isDigit = true) :
    (zstripPre m = [] ∧ ((charsVal m : Int)) = 0) ∨
      setString (zstripPre m) = some ((charsVal m : Int)) := by
  rcases hstrip : zstripPre m with _ | ⟨c, t⟩
  · left
    refine ⟨rfl, ?_⟩
    rw [charsVal_eq_zero_of_zstripPre_nil hstrip]
    rfl
  · right
    have hne : zstripPre m ≠ [] := by rw [hstrip]; simp
    rw [← hstrip,
      setString_of_digits hne (fun x hx => hdig x (mem_of_mem_zstripPre hx)),
      charsVal_zstripPre]

/-! ## Decomposing the rendered string -/

theorem stringify_decompose {u : Int} (hu : 0 ≤ u) :
    ∃ m x : List Char,
      stringify u eExp = m ++ '.' :: x ∧
      m ≠ [] ∧
      (∀ c ∈ m, c.isDigit = true) ∧ (∀ c ∈ x, c.isDigit = true) ∧
      x.length = eExp ∧
      (charsVal m : Int) * 10 ^ 18 + (charsVal x : Int) = u := by
  have hs : intToChars u = natToChars u.natAbs := by
    unfold intToChars
    rw [if_neg (by omega : ¬ u < 0)]
  have hdig := natToChars_all_digit u.natAbs
  have hvs : (charsVal (natToChars u.natAbs) : Int) = u := by
    rw [charsVal_natToChars]
    exact Int.natAbs_of_nonneg hu
  by_cases hlen : (natToChars u.natAbs).length ≤ eExp
  · refine ⟨['0'], zeroes.take (eExp - (natToChars u.natAbs).length) ++ natToChars u.natAbs,
      ?_, by simp, ?_, ?_, ?_, ?_⟩
    · simp only [stringify, hs]
      rw [if_pos hlen]
      have hxlen : (zeroes.take (eExp - (natToChars u.natAbs).length)
          ++ natToChars u.natAbs).length = eExp := by
        simp only [List.length_append, List.length_take, zeroes, List.length_replicate]
        omega
      rw [hxlen]
      rw [if_neg (by omega : ¬ eExp < eExp)]
    · intro c hc
      rw [List.mem_singleton] at hc
      subst hc; decide
    · intro c hc
      rcases List.mem_append.mp hc with hc | hc
      · have : c ∈ zeroes := List.take_subset _ _ hc
        have hc0 : c = '0' := (List.mem_replicate.mp this).2
        subst hc0; decide
      · exact hdig c hc
    · simp only [List.length_append, List.length_take, zeroes, List.length_replicate]
      omega
    · have hall0 : ∀ c ∈ zeroes.take (eExp - (natToChars u.natAbs).length), c = '0' :=
        fun c hc => (List.mem_replicate.mp (List.take_subset _ _ hc)).2
      rw [charsVal_zfill _ hall0, hvs]
      have h0 : (charsVal ['0'] : Int) = 0 := rfl
      rw [h0]
      ring
  · push_neg at hlen
    refine ⟨(natToChars u.natAbs).take ((natToChars u.natAbs).length - eExp),
      (natToChars u.natAbs).drop ((natToChars u.natAbs).length - eExp),
      ?_, ?_, ?_, ?_, ?_, ?_⟩
    · simp only [stringify, hs]
      rw [if_neg (by omega)]
      have hxlen : ((natToChars u.natAbs).drop ((natToChars u.natAbs).length - eExp)).length
          = eExp := by
        rw [List.length_drop]
        omega
      rw [hxlen]
      rw [if_neg (by omega : ¬ eExp < eExp)]
    · have : ((natToChars u.natAbs).take ((natToChars u.natAbs).length - eExp)).length
          = (natToChars u.natAbs).length - eExp := by
        rw [List.length_take]
        omega
      intro hnil
      rw [hnil] at this
      simp at this
      omega
    · exact fun c hc => hdig c (List.take_subset _ _ hc)
    · exact fun c hc => hdig c (List.drop_subset _ _ hc)
    · rw [List.length_drop]
      omega
    · have hsplit := List.take_append_drop ((natToChars u.natAbs).length - eExp)
        (natToChars u.natAbs)
      have hv : charsVal (natToChars u.natAbs)
          = charsVal ((natToChars u.natAbs).take ((natToChars u.natAbs).length - eExp))
              * 10 ^ 18
            + charsVal ((natToChars u.natAbs).drop ((natToChars u.natAbs).length - eExp)) := by
        conv_lhs => rw [← hsplit]
        rw [charsVal_append, List.length_drop]
        have h18 : (natToChars u.natAbs).length - ((natToChars u.natAbs).length - eExp) = 18 := by
          have he : eExp = 18 := rfl
          omega
        rw [h18]
      have hcast : ((charsVal ((natToChars u.natAbs).take ((natToChars u.natAbs).length - eExp))
            * 10 ^ 18
          + charsVal ((natToChars u.natAbs).drop ((natToChars u.natAbs).length - eExp))
          : Nat) : Int) = u := by
        rw [← hv, hvs]
      push_cast at hcast
      exact hcast

/-! ## The round trip on the scaled integer -/

theorem parse_stringify_roundtrip {u : Int} (hu : 0 ≤ u) :
    parse 0 (stringify u eExp) = .ok u := by
  obtain ⟨m, x, hmx, hmne, hmdig, hxdig, hxlen, hval⟩ := stringify_decompose hu
  rw [hmx]
  have hdot : '.' ∉ m := fun hm => (ne_dot_of_isDigit (hmdig _ hm)) rfl
  rw [parse_append_formula 0 ((charsVal m : Int)) m x hdot (ipart_resolve_zero hmdig) hxdig]
  rw [List.take_of_length_le (by rw [hxlen]; decide : x.length ≤ 18), hxlen]
  have h18 : (18 : Nat) - eExp = 0 := rfl
  rw [h18, pow_zero, mul_one, hval]

/-! ## Segments of a rendered string -/

theorem wholeSeg_append (m x : List Char) (h : '.' ∉ m) :
    wholeSeg (m ++ '.' :: x) = m := by
  induction m with
  | nil => simp [wholeSeg, List.takeWhile_cons]
  | cons c t ih =>
    have hc : c ≠ '.' := fun e => h (e ▸ List.mem_cons_self c t)
    have ht : '.' ∉ t := fun hm => h (List.mem_cons_of_mem _ hm)
    simp only [List.cons_append, wholeSeg, List.takeWhile_cons]
    rw [if_pos (bne_iff_ne.mpr hc)]
    unfold wholeSeg at ih
    rw [ih ht]

theorem fracSeg_append (m x : List Char) (h : '.' ∉ m) :
    fracSeg (m ++ '.' :: x) = x := by
  induction m with
  | nil => simp [fracSeg, List.dropWhile_cons]
  | cons c t ih =>
    have hc : c ≠ '.' := fun e => h (e ▸ List.mem_cons_self c t)
    have ht : '.' ∉ t := fun hm => h (List.mem_cons_of_mem _ hm)
    simp only [List.cons_append, fracSeg, List.dropWhile_cons]
    rw [if_pos (bne_iff_ne.mpr hc)]
    unfold fracSeg at ih
    exact ih ht

/-- `stringify` in the regime where the decimal rendering is longer than
`eExp` characters: split from the right. -/
theorem stringify_high {b : Int} (oprec : Nat) (h : ¬ (intToChars b).length ≤ eExp) :
    stringify b oprec =
      (intToChars b).take ((intToChars b).length - eExp) ++ '.' ::
        (if oprec < ((intToChars b).drop ((intToChars b).length - eExp)).length
         then ((intToChars b).drop ((intToChars b).length - eExp)).take oprec
         else (intToChars b).drop ((intToChars b).length - eExp)) := by
  simp only [stringify]
  rw [if_neg h]

/-- `StringFixed` at precision 18 is `stringify` at full precision. -/
theorem stringFixed_eighteen (p : Currency) :
    Currency.StringFixed p 18 = stringify p.units eExp := rfl

theorem parseCore_prior_independent {pre : List Char} (hne : pre ≠ []) (p0 p1 : Int)
    (post : List Char) : parseCore p0 pre post = parseCore p1 pre post := by
  unfold parseCore
  simp only [if_pos (List.length_pos.mpr hne)]

/-! ## Claim theorems -/

/-- C7: Div, DivMod and Inv applied with a divisor whose units equal zero
fail with the division-by-zero panic (modelled as `none`), which propagates
to the caller; they never return a result. -/
theorem div_by_zero_propagates (a b : Currency) (hb : b.units = 0) :
    Div a b = none ∧ DivMod a b = none ∧ Inv b = none ∧
      Currency.Div a b = none ∧ Currency.DivMod a b = none := by
  refine ⟨?_, ?_, ?_, ?_, ?_⟩ <;>
    simp [Div, DivMod, Inv, Currency.Div, Currency.DivMod, hb]

theorem div_by_zero_propagates_witness :
    Div ⟨5⟩ ⟨0⟩ = none ∧ DivMod ⟨5⟩ ⟨0⟩ = none ∧ Inv ⟨0⟩ = none ∧
      Currency.Div ⟨5⟩ ⟨0⟩ = none ∧ Currency.DivMod ⟨5⟩ ⟨0⟩ = none :=
  div_by_zero_propagates ⟨5⟩ ⟨0⟩ rfl

/-- C8: for b.units nonzero, DivMod returns a quotient q and remainder r
with a.units = b.units * q.units + r.units and 0 ≤ r.units < |b.units|
(Euclidean convention, not truncation toward zero). -/
theorem divmod_euclidean (a b : Currency) (hb : b.units ≠ 0) :
    ∃ q r : Currency, DivMod a b = some (q, r) ∧
      a.units = b.units * q.units + r.units ∧
      0 ≤ r.units ∧ r.units < |b.units| := by
  refine ⟨⟨Int.ediv a.units b.units⟩, ⟨Int.emod a.units b.units⟩, ?_, ?_, ?_, ?_⟩
  · simp [DivMod, hb]
  · exact (Int.ediv_add_emod a.units b.units).symm
  · exact Int.emod_nonneg a.units hb
  · rcases lt_or_gt_of_ne hb with h | h
    · have h2 : a.units % (-b.units) = a.units % b.units := Int.emod_neg a.units b.units
      have h3 : a.units % (-b.units) < -b.units := Int.emod_lt_of_pos a.units (by omega)
      rw [abs_of_neg h]
      show a.units % b.units < -b.units
      omega
    · rw [abs_of_pos h]
      exact Int.emod_lt_of_pos a.units h

theorem divmod_euclidean_witness :
    ∃ q r : Currency, DivMod ⟨7⟩ ⟨-3⟩ = some (q, r) ∧
      (⟨7⟩ : Currency).units = (⟨-3⟩ : Currency).units * q.units + r.units ∧
      0 ≤ r.units ∧ r.units < |(⟨-3⟩ : Currency).units| :=
  divmod_euclidean ⟨7⟩ ⟨-3⟩ (by decide)

/-- C9: String equals StringFixed 18, and StringFixed clamps any precision
p ≤ 0 or p > 18 to 18. -/
theorem string_fixed_clamp (v : Currency) (p : Int) :
    Currency.String v = Currency.StringFixed v 18 ∧
      (p ≤ 0 ∨ 18 < p → Currency.StringFixed v p = Currency.StringFixed v 18) := by
  constructor
  · rfl
  · intro hp
    simp only [Currency.StringFixed]
    have h2 : p > (eExp : Int) ∨ p ≤ 0 := by
      rcases hp with h | h
      · right; exact h
      · left
        have he : (eExp : Int) = 18 := rfl
        omega
    rw [if_pos h2, if_neg (by norm_num [eExp] : ¬ ((18:Int) > (eExp : Int) ∨ (18:Int) ≤ 0))]
    rfl

theorem string_fixed_clamp_witness :
    Currency.String ⟨0⟩ = Currency.StringFixed ⟨0⟩ 18 ∧
      Currency.StringFixed ⟨0⟩ (-7) = Currency.StringFixed ⟨0⟩ 18 :=
  ⟨(string_fixed_clamp ⟨0⟩ (-7)).1, (string_fixed_clamp ⟨0⟩ (-7)).2 (Or.inl (by decide))⟩

/-- C5: parsing a valid dotted input into a fresh zero value stores
units = p * 10^18 + f0 * 10^(18-n), where p is the signed integer denoted by
the stripped integer part (0 when it strips to empty), the fraction field is
truncated to its first 18 characters, n is the truncated length before
leading-zero stripping, and f0 is the fraction digits' unsigned value; a
dotless input stores p * 10^18. -/
theorem parse_formula_fresh (ip fp : List Char) (p : Int)
    (hdot : '.' ∉ ip)
    (hip : (zstripPre ip = [] ∧ p = 0) ∨ setString (zstripPre ip) = some p)
    (hfp : ∀ c ∈ fp, c.isDigit = true) :
    parse 0 (ip ++ '.' :: fp)
        = .ok (p * 10 ^ 18
            + (charsVal (fp.take 18) : Int) * 10 ^ (18 - (fp.take 18).length)) ∧
      parse 0 ip = .ok (p * 10 ^ 18) := by
  constructor
  · rw [parse_append_formula 0 p ip fp hdot hip hfp]
    have he : 18 - fp.length = 18 - (fp.take 18).length := by
      rw [List.length_take]
      omega
    rw [he]
  · exact parse_nodot_formula 0 p ip hdot hip

theorem parse_formula_fresh_witness :
    parse 0 ("12".toList ++ '.' :: "345".toList)
        = .ok (12 * 10 ^ 18
            + (charsVal ("345".toList.take 18) : Int)
              * 10 ^ (18 - ("345".toList.take 18).length)) ∧
      parse 0 ("12".toList) = .ok (12 * 10 ^ 18) :=
  parse_formula_fresh ("12".toList) ("345".toList) 12 (by decide)
    (Or.inr (by decide)) (by decide)

set_option maxRecDepth 20000 in
/-- C3 counterexample: parse does not overwrite the receiver when the
integer field strips to empty; two receivers with prior units 1 and 0 end
with different units after parsing the same input. -/
theorem parse_prior_leaks :
    parse 1 ("0.5".toList) = .ok 1500000000000000000 ∧
      parse 0 ("0.5".toList) = .ok 500000000000000000 ∧
      (1500000000000000000 : Int) ≠ 500000000000000000 :=
  ⟨rfl, rfl, by decide⟩

/-- C3 amended: the parse result is a function of the input alone whenever
the integer field (the part before the first dot) does not strip to the
empty string; in that case any two prior receiver values give equal
results. -/
theorem parse_prior_independent (s : List Char) (p0 p1 : Int)
    (h : zstripPre ((splitDot s).headD []) ≠ []) :
    parse p0 s = parse p1 s := by
  unfold parse
  rcases hs : splitDot s with _ | ⟨a, t⟩
  · exact absurd hs (splitDot_ne_nil s)
  rcases t with _ | ⟨b, t2⟩
  · rw [hs] at h
    simp only [List.headD_cons] at h
    exact parseCore_prior_independent h p0 p1 []
  rcases t2 with _ | ⟨c2, t3⟩
  · rw [hs] at h
    simp only [List.headD_cons] at h
    exact parseCore_prior_independent h p0 p1 (zstripPost b)
  · rfl

theorem parse_prior_independent_witness :
    parse 3 ("1.5".toList) = parse 9 ("1.5".toList) :=
  parse_prior_independent ("1.5".toList) 3 9 (by decide)

set_option maxRecDepth 20000 in
/-- C10: an input whose integer field is a minus sign followed only by
zeroes parses exactly like the same input without the minus sign, so the
result is the non-negative value of the fraction digits alone; in
particular parse of minus zero point five equals parse of zero point five. -/
theorem parse_minus_zero_intpart (k : Nat) (fp : List Char) :
    parse 0 ('-' :: (List.replicate (k+1) '0' ++ '.' :: fp))
        = parse 0 (List.replicate (k+1) '0' ++ '.' :: fp) ∧
      parse 0 ("-0.5".toList) = .ok 500000000000000000 ∧
      parse 0 ("0.5".toList) = .ok 500000000000000000 ∧
      parse 0 ("-00.25".toList) = .ok 250000000000000000 := by
  refine ⟨?_, rfl, rfl, rfl⟩
  have hdots : '.' ∉ '-' :: List.replicate (k+1) '0' := by
    intro h
    rcases List.mem_cons.mp h with h | h
    · exact absurd h (by decide)
    · exact absurd (List.mem_replicate.mp h).2 (by decide)
  have hdots2 : '.' ∉ List.replicate (k+1) '0' := fun h =>
    absurd (List.mem_replicate.mp h).2 (by decide)
  show parse 0 (('-' :: List.replicate (k+1) '0') ++ '.' :: fp) = _
  unfold parse
  rw [splitDot_append fp hdots, splitDot_append fp hdots2]
  have h1 : zstripPre ('-' :: List.replicate (k+1) '0')
      = '-' :: List.replicate (k+1) '0' :=
    zstripPre_cons_of_ne _ (by decide)
  have h2 : setString ('-' :: List.replicate (k+1) '0') = some 0 := by
    rw [setString_dash_digits (by simp)
      (fun c hc => by rw [(List.mem_replicate.mp hc).2]; decide)]
    rw [charsVal_replicate_zero]
    simp
  rcases hfp : splitDot fp with _ | ⟨b, t⟩
  · exact absurd hfp (splitDot_ne_nil fp)
  rcases t with _ | ⟨b2, t2⟩
  · show parseCore 0 (zstripPre ('-' :: List.replicate (k+1) '0')) (zstripPost b)
        = parseCore 0 (zstripPre (List.replicate (k+1) '0')) (zstripPost b)
    rw [parseCore_resolved (Or.inr (by rw [h1]; exact h2)),
      parseCore_resolved (Or.inl ⟨zstripPre_replicate_zero (k+1), rfl⟩)]
  · rfl

set_option maxRecDepth 20000 in
/-- C4 counterexample: for units = -5 (a negative value of magnitude below
one unit) the minus sign lands inside the fractional-digit segment of the
rendered string. -/
theorem sign_in_fraction_counterexample :
    '-' ∈ fracSeg (stringify (-5) 18) := by decide

/-- C4 amended: the minus sign stays out of the fractional segment and lands
in the whole-unit segment exactly when the decimal rendering is longer than
18 characters, i.e. for negative values with |units| ≥ 10^17; for smaller
negative magnitudes the sign character lands inside the fractional segment
(see the counterexample). -/
theorem sign_position_large (b : Int) (oprec : Nat) (hb : b < 0)
    (hmag : 10 ^ 17 ≤ b.natAbs) :
    '-' ∈ wholeSeg (stringify b oprec) ∧
      ∀ c ∈ fracSeg (stringify b oprec), c ≠ '-' := by
  have h17 : (0:Nat) < 10 ^ 17 := by positivity
  have hne : b.natAbs ≠ 0 := Nat.pos_iff_ne_zero.mp (lt_of_lt_of_le h17 hmag)
  have hlen18 : 18 ≤ (natToChars b.natAbs).length := by
    by_contra hlt
    push_neg at hlt
    have h1 : b.natAbs < 10 ^ (natToChars b.natAbs).length := lt_pow_length_natToChars hne
    have h2 : (10:Nat) ^ (natToChars b.natAbs).length ≤ 10 ^ 17 :=
      Nat.pow_le_pow_right (by norm_num) (by omega)
    exact absurd hmag (not_le.mpr (lt_of_lt_of_le h1 h2))
  have hs : intToChars b = '-' :: natToChars b.natAbs := by
    unfold intToChars
    rw [if_pos hb]
  have hslen : ¬ (intToChars b).length ≤ eExp := by
    rw [hs]
    simp only [List.length_cons]
    show ¬ (natToChars b.natAbs).length + 1 ≤ 18
    omega
  rw [stringify_high oprec hslen, hs]
  have hjeq : ('-' :: natToChars b.natAbs).length - eExp
      = ((natToChars b.natAbs).length - eExp) + 1 := by
    simp only [List.length_cons]
    show (natToChars b.natAbs).length + 1 - 18 = (natToChars b.natAbs).length - 18 + 1
    omega
  rw [hjeq, List.take_succ_cons, List.drop_succ_cons]
  have hdotm : '.' ∉
      '-' :: (natToChars b.natAbs).take ((natToChars b.natAbs).length - eExp) := by
    intro h
    rcases List.mem_cons.mp h with h | h
    · exact absurd h (by decide)
    · have := natToChars_all_digit b.natAbs '.' (List.take_subset _ _ h)
      exact absurd this (by decide)
  constructor
  · rw [wholeSeg_append _ _ hdotm]
    exact List.mem_cons_self _ _
  · rw [fracSeg_append _ _ hdotm]
    intro c hc
    have hcds : c ∈ natToChars b.natAbs := by
      by_cases hx : oprec
          < ((natToChars b.natAbs).drop ((natToChars b.natAbs).length - eExp)).length
      · rw [if_pos hx] at hc
        exact List.drop_subset _ _ (List.take_subset _ _ hc)
      · rw [if_neg hx] at hc
        exact List.drop_subset _ _ hc
    exact ne_dash_of_isDigit (natToChars_all_digit _ _ hcds)

theorem sign_position_large_witness :
    '-' ∈ wholeSeg (stringify (-(10 ^ 17)) 18) ∧
      ∀ c ∈ fracSeg (stringify (-(10 ^ 17)) 18), c ≠ '-' :=
  sign_position_large (-(10 ^ 17)) 18 (by norm_num) (by decide)

set_option maxRecDepth 20000 in
/-- C1 counterexample: marshaling the value with units -10^17 renders a
string whose integer field is a bare minus sign, so unmarshaling it into a
fresh zero value fails with the invalid-decimal error instead of returning a
value equal to the original. -/
theorem marshal_roundtrip_counterexample :
    Currency.UnmarshalJSON New (Currency.MarshalJSON ⟨-(10 ^ 17)⟩)
      = .error .invalidDecimal := rfl

/-- C1 amended: for every Currency value with nonnegative units, MarshalJSON
followed by UnmarshalJSON into a fresh zero value yields a value equal to
the original under Eq; negative values can fail to round-trip (see the
counterexample). -/
theorem marshal_unmarshal_nonneg (v : Currency) (hv : 0 ≤ v.units) :
    ∃ w : Currency, Currency.UnmarshalJSON New (Currency.MarshalJSON v) = .ok w ∧
      Eq w v = true := by
  refine ⟨v, ?_, ?_⟩
  · show (parse 0 (stringify v.units eExp)).map Currency.mk = .ok v
    rw [parse_stringify_roundtrip hv]
    rfl
  · simp [currency.Eq, currency.Cmp, lt_irrefl]

theorem marshal_unmarshal_nonneg_witness :
    ∃ w : Currency, Currency.UnmarshalJSON New (Currency.MarshalJSON ⟨7⟩) = .ok w ∧
      Eq w ⟨7⟩ = true :=
  marshal_unmarshal_nonneg ⟨7⟩ (by decide)

theorem decimalValueScaled_cons_not_dash {c : Char} (t : List Char) (hc : c ≠ '-') :
    decimalValueScaled (c :: t) = decimalValueScaledCore (c :: t) := by
  show (if c = '-' then
      if t.isEmpty = true then none
      else (decimalValueScaledCore t).map (fun v => -v)
    else decimalValueScaledCore (c :: t)) = decimalValueScaledCore (c :: t)
  rw [if_neg hc]

theorem decimalValueScaledCore_two (ip fp : List Char)
    (hip : ∀ c ∈ ip, c.isDigit = true) (hfp : ∀ c ∈ fp, c.isDigit = true)
    (hlen : fp.length ≤ 18) :
    decimalValueScaledCore (ip ++ '.' :: fp)
      = some ((charsVal ip : Int) * 10 ^ 18
          + (charsVal fp : Int) * 10 ^ (18 - fp.length)) := by
  have hdip : '.' ∉ ip := fun hm => (ne_dot_of_isDigit (hip _ hm)) rfl
  have hdfp : '.' ∉ fp := fun hm => (ne_dot_of_isDigit (hfp _ hm)) rfl
  unfold decimalValueScaledCore
  rw [splitDot_append fp hdip, splitDot_no_dot hdfp]
  have hcond : (ip.all Char.isDigit && fp.all Char.isDigit
      && decide (fp.length ≤ 18)) = true := by
    simp only [Bool.and_eq_true, List.all_eq_true, decide_eq_true_eq]
    exact ⟨⟨hip, hfp⟩, hlen⟩
  simp [hcond]

theorem decimalValueScaledCore_one (ip : List Char)
    (hip : ∀ c ∈ ip, c.isDigit = true) :
    decimalValueScaledCore ip = some ((charsVal ip : Int) * 10 ^ 18) := by
  have hdip : '.' ∉ ip := fun hm => (ne_dot_of_isDigit (hip _ hm)) rfl
  unfold decimalValueScaledCore
  rw [splitDot_no_dot hdip]
  have hcond : ip.all Char.isDigit = true := List.all_eq_true.mpr hip
  simp [hcond]

theorem decimalValueScaled_stringify_nonneg {u : Int} (hu : 0 ≤ u) :
    decimalValueScaled (Currency.StringFixed ⟨u⟩ 18) = some u := by
  rw [stringFixed_eighteen]
  obtain ⟨m, x, hmx, hmne, hmdig, hxdig, hxlen, hval⟩ := stringify_decompose hu
  show decimalValueScaled (stringify _ eExp) = _
  rw [hmx]
  cases m with
  | nil => exact absurd rfl hmne
  | cons mc mt =>
    rw [List.cons_append,
      decimalValueScaled_cons_not_dash _
        (ne_dash_of_isDigit (hmdig mc (List.mem_cons_self mc mt))),
      ← List.cons_append,
      decimalValueScaledCore_two (mc :: mt) x hmdig hxdig (by rw [hxlen]; decide)]
    rw [hxlen]
    have h0 : (18:Nat) - eExp = 0 := rfl
    rw [h0, pow_zero, mul_one, hval]

set_option maxRecDepth 20000 in
/-- C2 counterexample: the string "-1.5" denotes -1.5 (scaled:
-15*10^17), but parsing it yields -5*10^17 (the positive fraction is added
to the negative integer part), and rendering that at precision 18 denotes
-5*10^17, not the value denoted by the input. -/
theorem value_roundtrip_counterexample :
    decimalValueScaled ("-1.5".toList) = some (-1500000000000000000) ∧
      parse 0 ("-1.5".toList) = .ok (-500000000000000000) ∧
      decimalValueScaled (stringify (-500000000000000000) 18)
        = some (-500000000000000000) ∧
      ((-500000000000000000 : Int) ≠ -1500000000000000000) :=
  ⟨rfl, rfl, rfl, by decide⟩

/-- C2 amended: for every unsigned decimal string (digit characters with at
most one dot, at most 18 fractional digits), NewFromString followed by
StringFixed 18 reproduces the denoted numeric value exactly: the first
conjunct covers the one-dot form, the second the dotless integer form;
strings with a minus sign are mis-parsed (see the counterexample). -/
theorem value_roundtrip_unsigned (ip fp : List Char)
    (hip : ∀ c ∈ ip, c.isDigit = true) (hfp : ∀ c ∈ fp, c.isDigit = true)
    (hlen : fp.length ≤ 18) :
    (∃ u : Int,
      0 ≤ u ∧
      NewFromString (ip ++ '.' :: fp) = .ok ⟨u⟩ ∧
      decimalValueScaled (ip ++ '.' :: fp) = some u ∧
      decimalValueScaled (Currency.StringFixed ⟨u⟩ 18) = some u) ∧
    (∃ v : Int,
      0 ≤ v ∧
      NewFromString ip = .ok ⟨v⟩ ∧
      decimalValueScaled ip = some v ∧
      decimalValueScaled (Currency.StringFixed ⟨v⟩ 18) = some v) := by
  have hdip : '.' ∉ ip := fun hm => (ne_dot_of_isDigit (hip _ hm)) rfl
  constructor
  · have hu0 : (0:Int) ≤ (charsVal ip : Int) * 10 ^ 18
        + (charsVal fp : Int) * 10 ^ (18 - fp.length) := by positivity
    refine ⟨(charsVal ip : Int) * 10 ^ 18 + (charsVal fp : Int) * 10 ^ (18 - fp.length),
      hu0, ?_, ?_, decimalValueScaled_stringify_nonneg hu0⟩
    · unfold NewFromString
      rw [if_pos (by simp)]
      rw [parse_append_formula 0 ((charsVal ip : Int)) ip fp hdip
        (ipart_resolve_zero hip) hfp]
      rw [List.take_of_length_le hlen]
      rfl
    · cases ip with
      | nil =>
        rw [List.nil_append, decimalValueScaled_cons_not_dash fp (by decide),
          ← List.nil_append ('.' :: fp)]
        exact decimalValueScaledCore_two [] fp hip hfp hlen
      | cons c t =>
        rw [List.cons_append,
          decimalValueScaled_cons_not_dash _
            (ne_dash_of_isDigit (hip c (List.mem_cons_self c t))),
          ← List.cons_append]
        exact decimalValueScaledCore_two (c :: t) fp hip hfp hlen
  · have hv0 : (0:Int) ≤ (charsVal ip : Int) * 10 ^ 18 := by positivity
    refine ⟨(charsVal ip : Int) * 10 ^ 18,
      hv0, ?_, ?_, decimalValueScaled_stringify_nonneg hv0⟩
    · cases ip with
      | nil => rfl
      | cons c t =>
        unfold NewFromString
        rw [if_pos (by simp)]
        rw [parse_nodot_formula 0 ((charsVal (c :: t) : Int)) (c :: t) hdip
          (ipart_resolve_zero hip)]
        rfl
    · cases ip with
      | nil => rfl
      | cons c t =>
        rw [decimalValueScaled_cons_not_dash _
          (ne_dash_of_isDigit (hip c (List.mem_cons_self c t)))]
        exact decimalValueScaledCore_one (c :: t) hip

theorem value_roundtrip_unsigned_witness :
    (∃ u : Int,
      0 ≤ u ∧
      NewFromString ("12".toList ++ '.' :: "5".toList) = .ok ⟨u⟩ ∧
      decimalValueScaled ("12".toList ++ '.' :: "5".toList) = some u ∧
      decimalValueScaled (Currency.StringFixed ⟨u⟩ 18) = some u) ∧
    (∃ v : Int,
      0 ≤ v ∧
      NewFromString ("12".toList) = .ok ⟨v⟩ ∧
      decimalValueScaled ("12".toList) = some v ∧
      decimalValueScaled (Currency.StringFixed ⟨v⟩ 18) = some v) :=
  value_roundtrip_unsigned ("12".toList) ("5".toList) (by decide) (by decide) (by decide)

theorem parseCore_cases (p0 : Int) (pre post : List Char) :
    (pre ≠ [] ∧ setString pre = none ∧
      parseCore p0 pre post = .error .invalidDecimal) ∨
    (∃ p, ((pre = [] ∧ p = p0) ∨ setString pre = some p) ∧
      parseCore p0 pre post = parseFrac p post) := by
  rcases hpre : pre with _ | ⟨c, t⟩
  · right
    exact ⟨p0, Or.inl ⟨rfl, rfl⟩, parseCore_resolved (Or.inl ⟨rfl, rfl⟩) post⟩
  · by_cases hset : setString (c :: t) = none
    · left
      exact ⟨by simp, hset, parseCore_invalid (by simp) hset post⟩
    · right
      obtain ⟨x, hx⟩ := Option.ne_none_iff_exists'.mp hset
      exact ⟨x, Or.inr hx, parseCore_resolved (Or.inr hx) post⟩

theorem parseFrac_cases (p : Int) (post : List Char) :
    (zstripPre (if eExp < post.length then post.take eExp else post) ≠ [] ∧
      setString (zstripPre (if eExp < post.length then post.take eExp else post)) = none ∧
      parseFrac p post = .error .invalidFraction) ∨
    ((zstripPre (if eExp < post.length then post.take eExp else post) = [] ∨
      setString (zstripPre (if eExp < post.length then post.take eExp else post)) ≠ none) ∧
      ∃ u, parseFrac p post = .ok u) := by
  simp only [parseFrac]
  rcases hP : zstripPre (if eExp < post.length then post.take eExp else post)
    with _ | ⟨c, t⟩
  · right
    exact ⟨Or.inl rfl, ⟨_, rfl⟩⟩
  · by_cases hset : setString (c :: t) = none
    · left
      refine ⟨by simp, hset, ?_⟩
      rw [hset, if_pos (by simp : 0 < (c :: t).length)]
    · right
      obtain ⟨x, hx⟩ := Option.ne_none_iff_exists'.mp hset
      refine ⟨Or.inr hset, ?_⟩
      rw [hx, if_pos (by simp : 0 < (c :: t).length)]
      exact ⟨_, rfl⟩

/-- C6 amended: parse fails, and fails only, in these cases: the input
contains more than one dot (malformed decimal); the stripped non-empty
integer field is not a valid signed decimal literal (invalid decimal); the
truncated, stripped fraction field is non-empty and is not a literal
accepted by SetString — which reads a SIGNED decimal literal, not merely an
unsigned one as the claim states, see the counterexample (invalid
fraction).  Every other input parses successfully. -/
theorem parse_error_characterization (s : List Char) :
    (parse 0 s = .error .malformed ↔ 2 ≤ dotCount s) ∧
    (parse 0 s = .error .invalidDecimal ↔
      dotCount s ≤ 1 ∧ preOf s ≠ [] ∧ setString (preOf s) = none) ∧
    (parse 0 s = .error .invalidFraction ↔
      dotCount s ≤ 1 ∧ (preOf s = [] ∨ setString (preOf s) ≠ none) ∧
        strippedPostOf s ≠ [] ∧ setString (strippedPostOf s) = none) ∧
    ((dotCount s ≤ 1 ∧ (preOf s = [] ∨ setString (preOf s) ≠ none) ∧
        (strippedPostOf s = [] ∨ setString (strippedPostOf s) ≠ none)) →
      ∃ u, parse 0 s = .ok u) := by
  have hlen := splitDot_length s
  rcases hs : splitDot s with _ | ⟨a, t⟩
  · exact absurd hs (splitDot_ne_nil s)
  rcases t with _ | ⟨b, t2⟩
  · rw [hs] at hlen
    simp only [List.length_cons, List.length_nil] at hlen
    have hcount : dotCount s = 0 := by omega
    have hpre : preOf s = zstripPre a := by
      unfold preOf
      rw [hs]
      rfl
    have hpost : strippedPostOf s = [] := by
      unfold strippedPostOf truncPostOf rawPostOf
      rw [hs]
      rfl
    have hparse : parse 0 s = parseCore 0 (zstripPre a) [] := by
      unfold parse; rw [hs]
    rcases parseCore_cases 0 (zstripPre a) [] with ⟨hne, hnone, heq⟩ | ⟨p, hpre2, heq⟩
    · rw [heq] at hparse
      refine ⟨?_, ?_, ?_, ?_⟩
      · rw [hparse]; simp [hcount]
      · rw [hparse, hpre]; simp [hcount, hne, hnone]
      · rw [hparse]; simp [hpost]
      · rintro ⟨-, hok, -⟩
        rw [hpre] at hok
        rcases hok with h | h
        · exact absurd h hne
        · exact absurd hnone h
    · rw [heq] at hparse
      rcases parseFrac_cases p [] with ⟨hPne, -, -⟩ | ⟨-, u, hu⟩
      · exact absurd rfl hPne
      · rw [hu] at hparse
        have hpreok : preOf s = [] ∨ setString (preOf s) ≠ none := by
          rw [hpre]
          rcases hpre2 with ⟨h, -⟩ | h
          · exact Or.inl h
          · exact Or.inr (by rw [h]; simp)
        refine ⟨?_, ?_, ?_, ?_⟩
        · rw [hparse]; simp [hcount]
        · rw [hparse]
          constructor
          · intro h; exact absurd h (by simp)
          · rintro ⟨-, hne2, hnone2⟩
            rcases hpreok with h | h
            · exact absurd h hne2
            · exact absurd hnone2 h
        · rw [hparse]
          constructor
          · intro h; exact absurd h (by simp)
          · rintro ⟨-, -, hne2, -⟩
            exact absurd hpost hne2
        · intro _
          exact ⟨u, hparse⟩
  rcases t2 with _ | ⟨c2, t3⟩
  · rw [hs] at hlen
    simp only [List.length_cons, List.length_nil] at hlen
    have hcount : dotCount s = 1 := by omega
    have hpre : preOf s = zstripPre a := by
      unfold preOf
      rw [hs]
      rfl
    have hpost : strippedPostOf s
        = zstripPre (if eExp < (zstripPost b).length then (zstripPost b).take eExp
            else zstripPost b) := by
      unfold strippedPostOf truncPostOf rawPostOf
      rw [hs]
      rfl
    have hparse : parse 0 s = parseCore 0 (zstripPre a) (zstripPost b) := by
      unfold parse; rw [hs]
    rcases parseCore_cases 0 (zstripPre a) (zstripPost b)
      with ⟨hne, hnone, heq⟩ | ⟨p, hpre2, heq⟩
    · rw [heq] at hparse
      refine ⟨?_, ?_, ?_, ?_⟩
      · rw [hparse]; simp [hcount]
      · rw [hparse, hpre]; simp [hcount, hne, hnone]
      · rw [hparse, hpre]
        constructor
        · intro h; exact absurd h (by simp)
        · rintro ⟨-, hok, -⟩
          rcases hok with h | h
          · exact absurd h hne
          · exact absurd hnone h
      · rintro ⟨-, hok, -⟩
        rw [hpre] at hok
        rcases hok with h | h
        · exact absurd h hne
        · exact absurd hnone h
    · rw [heq] at hparse
      have hpreok : preOf s = [] ∨ setString (preOf s) ≠ none := by
        rw [hpre]
        rcases hpre2 with ⟨h, -⟩ | h
        · exact Or.inl h
        · exact Or.inr (by rw [h]; simp)
      rcases parseFrac_cases p (zstripPost b)
        with ⟨hPne, hPnone, hfr⟩ | ⟨hPok, u, hu⟩
      · rw [hfr] at hparse
        rw [← hpost] at hPne hPnone
        refine ⟨?_, ?_, ?_, ?_⟩
        · rw [hparse]; simp [hcount]
        · rw [hparse]
          constructor
          · intro h; exact absurd h (by simp)
          · rintro ⟨-, hne2, hnone2⟩
            rcases hpreok with h | h
            · exact absurd h hne2
            · exact absurd hnone2 h
        · rw [hparse]
          constructor
          · intro _
            exact ⟨by omega, hpreok, hPne, hPnone⟩
          · intro _
            rfl
        · rintro ⟨-, -, hok⟩
          rcases hok with h | h
          · exact absurd h hPne
          · exact absurd hPnone h
      · rw [hu] at hparse
        rw [← hpost] at hPok
        refine ⟨?_, ?_, ?_, ?_⟩
        · rw [hparse]; simp [hcount]
        · rw [hparse]
          constructor
          · intro h; exact absurd h (by simp)
          · rintro ⟨-, hne2, hnone2⟩
            rcases hpreok with h | h
            · exact absurd h hne2
            · exact absurd hnone2 h
        · rw [hparse]
          constructor
          · intro h; exact absurd h (by simp)
          · rintro ⟨-, -, hne2, hnone2⟩
            rcases hPok with h | h
            · exact absurd h hne2
            · exact absurd hnone2 h
        · intro _
          exact ⟨u, hparse⟩
  · rw [hs] at hlen
    simp only [List.length_cons] at hlen
    have hcount : 2 ≤ dotCount s := by omega
    have hparse : parse 0 s = .error .malformed := by
      unfold parse; rw [hs]
    refine ⟨?_, ?_, ?_, ?_⟩
    · rw [hparse]; simp [hcount]
    · rw [hparse]
      constructor
      · intro h; exact absurd h (by simp)
      · rintro ⟨h, -⟩
        omega
    · rw [hparse]
      constructor
      · intro h; exact absurd h (by simp)
      · rintro ⟨h, -⟩
        omega
    · rintro ⟨h, -⟩
      omega

set_option maxRecDepth 20000 in
/-- C6 counterexample: for input "0.-5" the stripped truncated fraction
field is the non-empty string "-5", which is not a valid unsigned decimal
integer literal, yet parse succeeds (SetString accepts the sign), so the
fraction-failure condition as claimed does not hold. -/
theorem parse_error_characterization_counterexample :
    strippedPostOf ("0.-5".toList) ≠ [] ∧
      parseNatDigits (strippedPostOf ("0.-5".toList)) = none ∧
      parse 0 ("0.-5".toList) = .ok (-50000000000000000) :=
  ⟨by decide, by decide, rfl⟩

theorem parse_error_characterization_witness :
    parse 0 ("1..2".toList) = .error .malformed :=
  (parse_error_characterization ("1..2".toList)).1.mpr (by decide)

end currency
